import Mathlib

/-!
Verification of the score-store subsystem of the memory-game leaderboard
server (`src/server.ts` / `src/unnamed/part_000`, class `ScoreStore`).

The TypeScript class keeps three pieces of state: the in-memory ranked
array `scores`, the not-yet-persisted buffer `pendingScores`, and the
SQLite `scores` table (the Durable Store), modelled here as the list `db`
in insertion (rowid) order.

Modelling decisions, each tied to a line of the source:
* `add` runs `this.scores.sort((a, b) => b.score - a.score)` after pushing
  the new entry.  `Array.prototype.sort` is stable (ECMA-262), and the
  comparator orders by score alone, so the call is a stable sort by score
  descending; we model it with `List.insertionSort` over `scoreGe`, which
  is exactly the canonical stable sort.
* the constructor seeds `scores` from
  `SELECT ... ORDER BY score DESC, timestamp DESC`; we model the returned
  order as a stable sort of the table rows by the lexicographic key
  (score descending, then timestamp descending), relation `specGe`.
* `getTop(limit)` returns `this.scores.slice(0, limit)`; JavaScript
  `slice` interprets a negative end index as `length + limit` (floored at
  0), and a nonnegative one as `min(limit, length)`.
* `checkpoint` runs the batch transaction `flush(this.pendingScores)` and
  only afterwards executes `this.pendingScores = []`; if the transaction
  throws, the assignment is skipped, so the state is unchanged (SQLite
  transactions are all-or-nothing).  We model the outcome of the write as
  a boolean parameter `ok` and return the success flag with the new state.
* the `part_000` variant caps `scores` at 1000 after each `add`
  (`if (this.scores.length > 1000) this.scores = this.scores.slice(0, 1000)`);
  the `server.ts` variant has no cap.  The cap is the parameter
  `cap : Option Nat` (`some 1000` for `part_000`, `none` for `server.ts`).
-/

namespace MemoryGame

/-- The `ScoreEntry` record of the source: name, score, creation timestamp. -/
structure ScoreEntry where
  name : String
  score : Int
  timestamp : Nat
  deriving DecidableEq

/-- Comparator of `ScoreStore.add`: `(a, b) => b.score - a.score`, i.e.
`a` may come before `b` iff `b.score ≤ a.score` (score descending). -/
def scoreGe (a b : ScoreEntry) : Prop := b.score ≤ a.score

/-- The key of the constructor's seed query
`ORDER BY score DESC, timestamp DESC`. -/
def specGe (a b : ScoreEntry) : Prop :=
  b.score < a.score ∨ (b.score = a.score ∧ b.timestamp ≤ a.timestamp)

instance : DecidableRel scoreGe :=
  fun a b => inferInstanceAs (Decidable (b.score ≤ a.score))

instance : DecidableRel specGe :=
  fun a b => inferInstanceAs
    (Decidable (b.score < a.score ∨ (b.score = a.score ∧ b.timestamp ≤ a.timestamp)))

instance : IsTotal ScoreEntry scoreGe :=
  ⟨fun a b => (le_total b.score a.score).imp id id⟩

instance : IsTrans ScoreEntry scoreGe :=
  ⟨fun _ _ _ hab hbc => le_trans hbc hab⟩

instance : IsTotal ScoreEntry specGe := by
  constructor
  intro a b
  unfold specGe
  rcases lt_trichotomy a.score b.score with h | h | h
  · right; left; exact h
  · rcases Nat.le_total a.timestamp b.timestamp with ht | ht
    · right; right; exact ⟨h, ht⟩
    · left; right; exact ⟨h.symm, ht⟩
  · left; left; exact h

instance : IsTrans ScoreEntry specGe := by
  constructor
  intro a b c hab hbc
  unfold specGe at *
  rcases hab with h1 | ⟨h1, h1t⟩ <;> rcases hbc with h2 | ⟨h2, h2t⟩
  · left; exact lt_trans h2 h1
  · left; omega
  · left; omega
  · right; exact ⟨by omega, le_trans h2t h1t⟩

/-- The stable sort performed by `this.scores.sort((a, b) => b.score - a.score)`. -/
def sortScores (l : List ScoreEntry) : List ScoreEntry :=
  l.insertionSort scoreGe

/-- The row order returned by the seed query
`SELECT name, score, timestamp FROM scores ORDER BY score DESC, timestamp DESC`. -/
def loadOrder (l : List ScoreEntry) : List ScoreEntry :=
  l.insertionSort specGe

/-- The mutable state of a `ScoreStore` instance plus the Durable Store:
`scores` and `pendingScores` are the two private arrays, `db` is the
SQLite `scores` table in insertion order. -/
structure StoreState where
  scores : List ScoreEntry
  pendingScores : List ScoreEntry
  db : List ScoreEntry
  deriving DecidableEq

/-- The constructor: seeds `scores` from the Durable Store (sorted by the
query's key), leaves `pendingScores` at its initializer `[]`. -/
def construct (rows : List ScoreEntry) : StoreState :=
  { scores := loadOrder rows, pendingScores := [], db := rows }

/-- The cap step of `add` in `part_000`:
`if (this.scores.length > 1000) this.scores = this.scores.slice(0, 1000)`,
generalized to an optional cap (absent in `server.ts`). -/
def applyCap (cap : Option Nat) (l : List ScoreEntry) : List ScoreEntry :=
  match cap with
  | none => l
  | some m => if m < l.length then l.take m else l

/-- Method `ScoreStore.add(name, score)`: build the entry with the current
timestamp, push it onto `scores` and `pendingScores`, re-sort `scores`
by score descending (stable), then apply the cap if configured. -/
def add (cap : Option Nat) (n : String) (sc : Int) (now : Nat)
    (s : StoreState) : StoreState :=
  let entry : ScoreEntry := ⟨n, sc, now⟩
  { s with
    scores := applyCap cap (sortScores (s.scores ++ [entry]))
    pendingScores := s.pendingScores ++ [entry] }

/-- Method `ScoreStore.getTop(limit)`: `this.scores.slice(0, limit)`, with
JavaScript `slice` semantics for a negative end index. -/
def getTop (limit : Int) (s : StoreState) : List ScoreEntry :=
  if limit < 0 then s.scores.take (s.scores.length + limit).toNat
  else s.scores.take limit.toNat

/-- Method `ScoreStore.checkpoint()`: no-op when `pendingScores` is empty;
otherwise run the batch transaction (`ok` says whether it succeeds) and,
only on success, reach the `this.pendingScores = []` assignment.  On
failure the transaction rolls back and the assignment is skipped, so the
whole state is unchanged.  Returns the state and whether the call
completed without throwing. -/
def checkpoint (ok : Bool) (s : StoreState) : StoreState × Bool :=
  if s.pendingScores.isEmpty then (s, true)
  else if ok then
    ({ s with db := s.db ++ s.pendingScores, pendingScores := [] }, true)
  else (s, false)

/-- One observable operation on the store: an HTTP `POST /api/score`
(`submit`), a timer or shutdown `checkpoint` (with the outcome of its
batch write), or an HTTP `GET /api/scores` (`query`, which only reads). -/
inductive Op where
  | submit (name : String) (score : Int) (now : Nat)
  | checkpoint (ok : Bool)
  | query (limit : Int)
  deriving DecidableEq

/-- Effect of one operation on the state.  `getTop` assigns to no field,
so `query` leaves the state unchanged. -/
def step (cap : Option Nat) (s : StoreState) : Op → StoreState
  | .submit n sc t => add cap n sc t s
  | .checkpoint ok => (checkpoint ok s).1
  | .query _ => s

/-- Run a sequence of operations. -/
def run (cap : Option Nat) (s : StoreState) (ops : List Op) : StoreState :=
  ops.foldl (step cap) s

/-- The entries submitted by a sequence of operations, in submission order. -/
def submittedList : List Op → List ScoreEntry
  | [] => []
  | .submit n sc t :: rest => ⟨n, sc, t⟩ :: submittedList rest
  | .checkpoint _ :: rest => submittedList rest
  | .query _ :: rest => submittedList rest

/-! ### Basic facts about the two sorts -/

/-- The stable sort of `add` permutes its input. -/
theorem sortScores_perm (l : List ScoreEntry) : (sortScores l).Perm l :=
  List.perm_insertionSort scoreGe l

/-- The stable sort of `add` yields a list sorted by score descending. -/
theorem sortScores_sorted (l : List ScoreEntry) : (sortScores l).Pairwise scoreGe :=
  List.sorted_insertionSort scoreGe l

/-- The seed-query order permutes the table rows. -/
theorem loadOrder_perm (l : List ScoreEntry) : (loadOrder l).Perm l :=
  List.perm_insertionSort specGe l

/-- The seed-query order is sorted by score descending, timestamp descending. -/
theorem loadOrder_sorted (l : List ScoreEntry) : (loadOrder l).Pairwise specGe :=
  List.sorted_insertionSort specGe l

/-- The lexicographic query key refines the score-only comparator. -/
theorem specGe_imp_scoreGe {a b : ScoreEntry} (h : specGe a b) : scoreGe a b := by
  rcases h with h | ⟨h, _⟩
  · exact le_of_lt h
  · exact le_of_eq h

/-- In a score-descending list, everything kept by `take M` scores at least
as high as everything discarded by `drop M`. -/
theorem pairwise_take_drop {l : List ScoreEntry} (h : l.Pairwise scoreGe) (M : Nat) :
    ∀ f ∈ l.take M, ∀ e ∈ l.drop M, e.score ≤ f.score := by
  have happ : (l.take M ++ l.drop M).Pairwise scoreGe := by
    rw [List.take_append_drop]; exact h
  exact (List.pairwise_append.mp happ).2.2

/-- An element of a sorted list is kept by `take M`, or is outscored by
everything `take M` keeps. -/
theorem mem_take_or_bound {l : List ScoreEntry} {e : ScoreEntry} (M : Nat)
    (hs : l.Pairwise scoreGe) (he : e ∈ l) :
    e ∈ l.take M ∨ ∀ f ∈ l.take M, e.score ≤ f.score := by
  have he2 : e ∈ l.take M ++ l.drop M := by rw [List.take_append_drop]; exact he
  rcases List.mem_append.mp he2 with h | h
  · left; exact h
  · right; intro f hf; exact pairwise_take_drop hs M f hf e h

/-- If a score-descending list has at least `M` elements scoring at least
`c`, then all of its first `M` elements score at least `c`. -/
theorem sorted_take_countP (c : Int) :
    ∀ (l : List ScoreEntry) (M : Nat), l.Pairwise scoreGe →
      M ≤ l.countP (fun x => decide (c ≤ x.score)) →
      ∀ f ∈ l.take M, c ≤ f.score := by
  intro l
  induction l with
  | nil => intro M _ _ f hf; simp at hf
  | cons a tl ih =>
    intro M hs hc f hf
    cases M with
    | zero => simp at hf
    | succ m =>
      rw [List.take_succ_cons] at hf
      have hca : c ≤ a.score := by
        have hpos : 0 < (a :: tl).countP (fun x => decide (c ≤ x.score)) :=
          lt_of_lt_of_le (Nat.succ_pos m) hc
        obtain ⟨x, hx, hpx⟩ := List.countP_pos_iff.mp hpos
        have hcx : c ≤ x.score := of_decide_eq_true hpx
        rcases List.mem_cons.mp hx with heq | hxtl
        · rw [heq] at hcx; exact hcx
        · exact le_trans hcx ((List.pairwise_cons.mp hs).1 x hxtl)
      rcases List.mem_cons.mp hf with heq | hftl
      · rw [heq]; exact hca
      · apply ih m (List.pairwise_cons.mp hs).2 _ f hftl
        have hcc := List.countP_cons (fun x => decide (c ≤ x.score)) a tl
        rw [hcc] at hc
        split at hc <;> omega

/-! ### Facts about single operations -/

/-- A checkpoint never touches the ranked collection. -/
theorem checkpoint_scores (ok : Bool) (s : StoreState) :
    ((checkpoint ok s).1).scores = s.scores := by
  unfold checkpoint
  split
  · rfl
  · split
    · rfl
    · rfl

/-- A checkpoint moves entries between `db` and `pendingScores` without
creating, deleting or reordering them. -/
theorem checkpoint_db_pending (ok : Bool) (s : StoreState) :
    ((checkpoint ok s).1).db ++ ((checkpoint ok s).1).pendingScores =
      s.db ++ s.pendingScores := by
  unfold checkpoint
  split
  · rfl
  · split
    · simp
    · rfl

/-- A successful checkpoint appends the whole buffer to the Durable Store. -/
theorem checkpoint_true_db (s : StoreState) :
    ((checkpoint true s).1).db = s.db ++ s.pendingScores := by
  unfold checkpoint
  split
  · rename_i h
    rw [List.isEmpty_iff.mp h]
    simp
  · simp

/-- A successful checkpoint leaves the buffer empty. -/
theorem checkpoint_true_pending (s : StoreState) :
    ((checkpoint true s).1).pendingScores = [] := by
  unfold checkpoint
  split
  · rename_i h
    exact List.isEmpty_iff.mp h
  · simp

/-- A failed checkpoint leaves the entire state unchanged: the transaction
rolls back and the clearing assignment after `flush(...)` is never reached. -/
theorem checkpoint_fail_eq (s : StoreState) : (checkpoint false s).1 = s := by
  unfold checkpoint
  split
  · rfl
  · rfl

/-! ### Trace-level invariants -/

/-- Running one more operation unfolds to stepping first. -/
theorem run_cons (cap : Option Nat) (s : StoreState) (op : Op) (ops : List Op) :
    run cap s (op :: ops) = run cap (step cap s op) ops := rfl

/-- Conservation of entries: at every point of every trace, the Durable
Store followed by the pending buffer equals the initial contents followed
by all submitted entries, in submission order. -/
theorem run_db_pending (cap : Option Nat) :
    ∀ (ops : List Op) (s : StoreState),
      (run cap s ops).db ++ (run cap s ops).pendingScores =
        (s.db ++ s.pendingScores) ++ submittedList ops := by
  intro ops
  induction ops with
  | nil => intro s; simp [run, submittedList]
  | cons op rest ih =>
    intro s
    rw [run_cons, ih]
    cases op with
    | submit n sc t =>
      simp only [step, add, submittedList]
      simp [List.append_assoc]
    | checkpoint ok =>
      have h : submittedList (Op.checkpoint ok :: rest) = submittedList rest := rfl
      rw [h]
      exact congrArg (fun x => x ++ submittedList rest) (checkpoint_db_pending ok s)
    | query k => rfl

/-- Unfolding equation: no cap configured. -/
theorem applyCap_none (l : List ScoreEntry) : applyCap none l = l := rfl

/-- Unfolding equation: cap `M` configured. -/
theorem applyCap_some (M : Nat) (l : List ScoreEntry) :
    applyCap (some M) l = if M < l.length then l.take M else l := rfl

/-- The cap step never lets the ranked collection grow. -/
theorem applyCap_sorted (cap : Option Nat) {l : List ScoreEntry}
    (h : l.Pairwise scoreGe) : (applyCap cap l).Pairwise scoreGe := by
  cases cap with
  | none => rw [applyCap_none]; exact h
  | some M =>
    rw [applyCap_some]
    split
    · exact List.Pairwise.sublist (List.take_sublist M l) h
    · exact h

/-- Every operation preserves sortedness of the ranked collection. -/
theorem step_scores_sorted (cap : Option Nat) (s : StoreState) (op : Op)
    (h : s.scores.Pairwise scoreGe) : (step cap s op).scores.Pairwise scoreGe := by
  cases op with
  | submit n sc t =>
    exact applyCap_sorted cap (sortScores_sorted (s.scores ++ [⟨n, sc, t⟩]))
  | checkpoint ok =>
    show ((checkpoint ok s).1).scores.Pairwise scoreGe
    rw [checkpoint_scores]
    exact h
  | query k => exact h

/-- Sortedness of the ranked collection is preserved along any trace. -/
theorem run_scores_sorted (cap : Option Nat) :
    ∀ (ops : List Op) (s : StoreState), s.scores.Pairwise scoreGe →
      (run cap s ops).scores.Pairwise scoreGe := by
  intro ops
  induction ops with
  | nil => intro s h; exact h
  | cons op rest ih =>
    intro s h
    rw [run_cons]
    exact ih _ (step_scores_sorted cap s op h)

/-- The §3 invariant on `pending`: every buffered entry is still in the
ranked collection, unless the configured cap has filled `ranked` with
entries that all score at least as high (i.e. the entry was evicted). -/
def pendingInv (cap : Option Nat) (s : StoreState) : Prop :=
  ∀ e ∈ s.pendingScores, e ∈ s.scores ∨
    ∃ M, cap = some M ∧ s.scores.length = M ∧ ∀ f ∈ s.scores, e.score ≤ f.score

/-- The `add` method preserves the pending-buffer invariant (sortedness of
the ranked collection is needed to reason about cap truncation). -/
theorem add_pendingInv (cap : Option Nat) (n : String) (sc : Int) (t : Nat)
    (s : StoreState) (hp : pendingInv cap s) :
    pendingInv cap (add cap n sc t s) := by
  intro e he
  have hpd : (add cap n sc t s).pendingScores =
      s.pendingScores ++ [(⟨n, sc, t⟩ : ScoreEntry)] := rfl
  have hsc : (add cap n sc t s).scores =
      applyCap cap (sortScores (s.scores ++ [(⟨n, sc, t⟩ : ScoreEntry)])) := rfl
  rw [hpd] at he
  rw [hsc]
  have hlsorted := sortScores_sorted (s.scores ++ [(⟨n, sc, t⟩ : ScoreEntry)])
  have hlperm := sortScores_perm (s.scores ++ [(⟨n, sc, t⟩ : ScoreEntry)])
  have hllen : (sortScores (s.scores ++ [(⟨n, sc, t⟩ : ScoreEntry)])).length =
      s.scores.length + 1 := by
    rw [hlperm.length_eq, List.length_append, List.length_singleton]
  -- either e is in the freshly sorted list, or it was already evicted
  have hkey : e ∈ sortScores (s.scores ++ [(⟨n, sc, t⟩ : ScoreEntry)]) ∨
      (∃ M, cap = some M ∧ s.scores.length = M ∧ ∀ f ∈ s.scores, e.score ≤ f.score) := by
    rcases List.mem_append.mp he with h | h
    · rcases hp e h with h2 | h2
      · left
        exact hlperm.mem_iff.mpr (List.mem_append.mpr (Or.inl h2))
      · right; exact h2
    · left
      exact hlperm.mem_iff.mpr (List.mem_append.mpr (Or.inr h))
  generalize hgen : sortScores (s.scores ++ [(⟨n, sc, t⟩ : ScoreEntry)]) = l
    at hlsorted hlperm hllen hkey ⊢
  cases cap with
  | none =>
    rw [applyCap_none]
    rcases hkey with h | ⟨M, hM, _⟩
    · left; exact h
    · exact absurd hM (by simp)
  | some M =>
    rw [applyCap_some]
    by_cases htr : M < l.length
    · -- truncation happens: scores become the top-M of the sorted list
      simp only [if_pos htr]
      have htklen : (l.take M).length = M := by
        rw [List.length_take]
        exact Nat.min_eq_left (Nat.le_of_lt htr)
      have hbound : e ∈ l.take M ∨ ∀ f ∈ l.take M, e.score ≤ f.score := by
        rcases hkey with h | ⟨M2, hM2, hlen2, hall2⟩
        · exact mem_take_or_bound M hlsorted h
        · right
          have hM2eq : M2 = M := by injection hM2 with h2; exact h2.symm
          rw [hM2eq] at hlen2
          -- at least M entries of the sorted list score at least e.score
          have hcount : M ≤ l.countP (fun x => decide (e.score ≤ x.score)) := by
            rw [hlperm.countP_eq, List.countP_append]
            have hfull : s.scores.countP (fun x => decide (e.score ≤ x.score)) =
                s.scores.length :=
              List.countP_eq_length.mpr (fun a ha => decide_eq_true (hall2 a ha))
            rw [hfull, hlen2]
            exact Nat.le_add_right M _
          exact sorted_take_countP e.score l M hlsorted hcount
      rcases hbound with h | h
      · left; exact h
      · right; exact ⟨M, rfl, htklen, h⟩
    · -- no truncation: the new list length fits under the cap
      simp only [if_neg htr]
      rcases hkey with h | ⟨M2, hM2, hlen2, _⟩
      · left; exact h
      · exfalso
        have hM2eq : M2 = M := by injection hM2 with h2; exact h2.symm
        rw [hM2eq] at hlen2
        rw [hllen, hlen2] at htr
        omega

/-- Every operation preserves the pending-buffer invariant. -/
theorem step_pendingInv (cap : Option Nat) (s : StoreState) (op : Op)
    (hp : pendingInv cap s) : pendingInv cap (step cap s op) := by
  cases op with
  | query k => exact hp
  | submit n sc t => exact add_pendingInv cap n sc t s hp
  | checkpoint ok =>
    have hsc : (checkpoint ok s).1.scores = s.scores := checkpoint_scores ok s
    have hpd : (checkpoint ok s).1.pendingScores = s.pendingScores ∨
        (checkpoint ok s).1.pendingScores = [] := by
      unfold checkpoint
      split
      · left; rfl
      · split
        · right; rfl
        · left; rfl
    show pendingInv cap (checkpoint ok s).1
    intro e he
    rcases hpd with hpd | hpd
    · rw [hpd] at he
      rcases hp e he with h | ⟨M, hM, hlen, hall⟩
      · left; rw [hsc]; exact h
      · right
        refine ⟨M, hM, ?_, ?_⟩
        · rw [hsc]; exact hlen
        · rw [hsc]; exact hall
    · rw [hpd] at he
      exact absurd he (List.not_mem_nil e)

/-- The pending-buffer invariant holds along any trace from a state whose
buffer satisfies it. -/
theorem run_pendingInv (cap : Option Nat) :
    ∀ (ops : List Op) (s : StoreState),
      pendingInv cap s → pendingInv cap (run cap s ops) := by
  intro ops
  induction ops with
  | nil => intro s hp; exact hp
  | cons op rest ih =>
    intro s hp
    rw [run_cons]
    exact ih _ (step_pendingInv cap s op hp)

/-- The constructor yields a ranked collection sorted by score descending. -/
theorem construct_sorted (rows : List ScoreEntry) :
    (construct rows).scores.Pairwise scoreGe :=
  (loadOrder_sorted rows).imp specGe_imp_scoreGe

/-- The constructor initializes the pending buffer empty, so the §3
invariant holds vacuously. -/
theorem construct_pendingInv (cap : Option Nat) (rows : List ScoreEntry) :
    pendingInv cap (construct rows) :=
  fun e he => absurd he (List.not_mem_nil e)

/-! ### Claim theorems -/

/-- C1, counterexample: submitting ("Alice", 50), ("Bob", 70), ("Carol", 70)
in that order with increasing timestamps does NOT make topN(3) return
[Carol, Bob, Alice].  The comparator of `add` compares scores only and
JavaScript sort is stable, so Bob stays before Carol: the result is
[Bob, Carol, Alice]. -/
theorem c1_counterexample :
    getTop 3 (run none (construct [])
        [Op.submit "Alice" 50 1, Op.submit "Bob" 70 2, Op.submit "Carol" 70 3]) ≠
      [⟨"Carol", 70, 3⟩, ⟨"Bob", 70, 2⟩, ⟨"Alice", 50, 1⟩] := by
  decide

/-- C1 (amended): for every sequence of operations the ranked collection is
always sorted by score descending, but ties are kept in insertion order
(the sort is stable and compares scores only), not timestamp descending:
the scenario returns [Bob, Carol, Alice]. -/
theorem c1_ranked_sorted_score_desc :
    (∀ (cap : Option Nat) (rows : List ScoreEntry) (ops : List Op),
      (run cap (construct rows) ops).scores.Pairwise scoreGe) ∧
    getTop 3 (run none (construct [])
        [Op.submit "Alice" 50 1, Op.submit "Bob" 70 2, Op.submit "Carol" 70 3]) =
      [⟨"Bob", 70, 2⟩, ⟨"Carol", 70, 3⟩, ⟨"Alice", 50, 1⟩] := by
  constructor
  · intro cap rows ops
    exact run_scores_sorted cap ops (construct rows) (construct_sorted rows)
  · decide

/-- C2, counterexample: after submitting three entries and a checkpoint
whose batch write fails, the pending buffer is NOT empty — the clearing
assignment comes after `flush(...)` and is skipped when the transaction
throws, so the batch is retained. -/
theorem c2_counterexample :
    ((checkpoint false (run none (construct [])
        [Op.submit "A" 1 1, Op.submit "B" 2 2, Op.submit "C" 3 3])).1).pendingScores ≠
      [] := by
  decide

/-- C2 (amended): if the batch write fails during a checkpoint, the whole
state is unchanged (the transaction rolls back and the clearing assignment
is never reached): the ranked collection is unaffected, but the batch is
retained in the pending buffer and IS retried — the next successful
checkpoint flushes it together with any newer entries. -/
theorem c2_failed_checkpoint_retains_batch (s : StoreState) :
    (checkpoint false s).1 = s ∧
    ((checkpoint true ((checkpoint false s).1)).1).db = s.db ++ s.pendingScores ∧
    ((checkpoint true ((checkpoint false s).1)).1).pendingScores = [] := by
  refine ⟨checkpoint_fail_eq s, ?_, ?_⟩
  · rw [checkpoint_fail_eq, checkpoint_true_db]
  · rw [checkpoint_fail_eq, checkpoint_true_pending]

/-- C3, counterexample: for the integer k = -1 and a cache holding three
entries, topN(-1) is not the clamped-empty prefix the claim requires:
JavaScript `slice(0, -1)` returns all but the last entry. -/
theorem c3_counterexample :
    getTop (-1) (run none (construct [])
        [Op.submit "A" 1 1, Op.submit "B" 2 2, Op.submit "C" 3 3]) ≠ [] := by
  decide

/-- C3 (amended): for every nonnegative k, topN(k) is the prefix of the
ranked collection of length min(k, len(ranked)); for negative k JavaScript
slice semantics yield the prefix of length max(len(ranked) + k, 0) instead
of clamping to 0.  In all cases the result is a prefix of `ranked` and
contains no entry more often than `ranked` does. -/
theorem c3_getTop_take_semantics (k : Int) (s : StoreState) :
    (0 ≤ k → getTop k s = s.scores.take k.toNat ∧
      (getTop k s).length = min k.toNat s.scores.length) ∧
    (k < 0 → getTop k s = s.scores.take (s.scores.length + k).toNat) ∧
    (∃ u, getTop k s ++ u = s.scores) ∧
    (∀ x, (getTop k s).count x ≤ s.scores.count x) := by
  have htake : ∀ m : Nat, ∃ u, s.scores.take m ++ u = s.scores :=
    fun m => ⟨s.scores.drop m, List.take_append_drop m s.scores⟩
  unfold getTop
  by_cases h : k < 0
  · rw [if_pos h]
    exact ⟨fun h0 => absurd h (not_lt.mpr h0), fun _ => rfl, htake _,
      fun x => List.Sublist.count_le (List.take_sublist _ _) x⟩
  · rw [if_neg h]
    exact ⟨fun _ => ⟨rfl, by rw [List.length_take]⟩, fun hneg => absurd hneg h,
      htake _, fun x => List.Sublist.count_le (List.take_sublist _ _) x⟩

/-- C3 witness: the amended theorem applied at k = 2 on a one-entry cache. -/
theorem c3_witness :
    (0 ≤ (2 : Int)) ∧
    (getTop 2 (construct [⟨"X", 10, 100⟩]) =
        (construct [⟨"X", 10, 100⟩]).scores.take (2 : Int).toNat ∧
      (getTop 2 (construct [⟨"X", 10, 100⟩])).length =
        min (2 : Int).toNat (construct [⟨"X", 10, 100⟩]).scores.length) :=
  ⟨by decide, (c3_getTop_take_semantics 2 (construct [⟨"X", 10, 100⟩])).1 (by decide)⟩

/-- C4: with a cap M configured, after any submit the ranked collection has
length at most M; when the insertion makes the sorted list exceed M it is
truncated to its first M (highest-ranked) entries, and every discarded
entry scores no higher than any kept entry. -/
theorem c4_cap_enforcement (M : Nat) (n : String) (sc : Int) (t : Nat)
    (s : StoreState) :
    (add (some M) n sc t s).scores.length ≤ M ∧
    (M < (sortScores (s.scores ++ [⟨n, sc, t⟩])).length →
      (add (some M) n sc t s).scores = (sortScores (s.scores ++ [⟨n, sc, t⟩])).take M ∧
      ∀ f ∈ (sortScores (s.scores ++ [⟨n, sc, t⟩])).take M,
        ∀ e ∈ (sortScores (s.scores ++ [⟨n, sc, t⟩])).drop M, e.score ≤ f.score) := by
  have hsc : (add (some M) n sc t s).scores =
      applyCap (some M) (sortScores (s.scores ++ [⟨n, sc, t⟩])) := rfl
  constructor
  · rw [hsc, applyCap_some]
    split
    · rw [List.length_take]; exact Nat.min_le_left _ _
    · rename_i hle; omega
  · intro htr
    constructor
    · rw [hsc, applyCap_some, if_pos htr]
    · exact pairwise_take_drop (sortScores_sorted _) M

/-- C4 witness: cap M = 1, one seeded entry, one submit — truncation to the
single highest-ranked entry. -/
theorem c4_witness :
    (1 < (sortScores ((construct [⟨"A", 5, 1⟩]).scores ++ [⟨"B", 7, 2⟩])).length) ∧
    (add (some 1) "B" (7 : Int) 2 (construct [⟨"A", 5, 1⟩])).scores =
      (sortScores ((construct [⟨"A", 5, 1⟩]).scores ++ [⟨"B", 7, 2⟩])).take 1 :=
  ⟨by decide,
    ((c4_cap_enforcement 1 "B" 7 2 (construct [⟨"A", 5, 1⟩])).2 (by decide)).1⟩

/-- C5: after a successful checkpoint the Durable Store holds the seeded
rows followed by every entry ever submitted (so everything submitted
before the checkpoint started is present), the pending buffer is cleared,
and — second conjunct — a checkpoint on an empty buffer is a no-op. -/
theorem c5_checkpoint_durability :
    (∀ (cap : Option Nat) (rows : List ScoreEntry) (ops : List Op),
      ((checkpoint true (run cap (construct rows) ops)).1).db =
          rows ++ submittedList ops ∧
      ((checkpoint true (run cap (construct rows) ops)).1).pendingScores = []) ∧
    (∀ (ok : Bool) (s : StoreState), s.pendingScores = [] →
      checkpoint ok s = (s, true)) := by
  constructor
  · intro cap rows ops
    refine ⟨?_, checkpoint_true_pending _⟩
    rw [checkpoint_true_db]
    have h := run_db_pending cap ops (construct rows)
    simpa [construct] using h
  · intro ok s hemp
    unfold checkpoint
    rw [hemp]
    rfl

/-- C5 witness: a checkpoint on the freshly constructed store (empty
buffer) is a no-op. -/
theorem c5_witness :
    (construct ([] : List ScoreEntry)).pendingScores = [] ∧
    checkpoint true (construct ([] : List ScoreEntry)) =
      (construct ([] : List ScoreEntry), true) :=
  ⟨rfl, c5_checkpoint_durability.2 true (construct []) rfl⟩

/-- C6: at every point of every trace, the Durable Store followed by the
still-pending buffer equals the seeded rows followed by all submitted
entries in submission order — so batches reach the Durable Store in
submission order, with batch-internal order preserved and no reordering
across checkpoint cycles. -/
theorem c6_flush_order (cap : Option Nat) (rows : List ScoreEntry) (ops : List Op) :
    (run cap (construct rows) ops).db ++ (run cap (construct rows) ops).pendingScores =
      rows ++ submittedList ops := by
  have h := run_db_pending cap ops (construct rows)
  simpa [construct] using h

/-- C7: at every point between operations, every entry of the pending
buffer is also in the ranked collection, unless the configured cap evicted
it — in which case the ranked collection is full (length = cap) and every
entry it kept scores at least as high as the evicted one. -/
theorem c7_pending_subset_ranked (cap : Option Nat) (rows : List ScoreEntry)
    (ops : List Op) :
    ∀ e ∈ (run cap (construct rows) ops).pendingScores,
      e ∈ (run cap (construct rows) ops).scores ∨
      ∃ M, cap = some M ∧ (run cap (construct rows) ops).scores.length = M ∧
        ∀ f ∈ (run cap (construct rows) ops).scores, e.score ≤ f.score :=
  run_pendingInv cap ops (construct rows) (construct_pendingInv cap rows)

/-- C7 witness: one submitted entry is pending and present in the ranked
collection. -/
theorem c7_witness :
    ((⟨"A", 5, 1⟩ : ScoreEntry) ∈
        (run none (construct []) [Op.submit "A" 5 1]).pendingScores) ∧
    ((⟨"A", 5, 1⟩ : ScoreEntry) ∈ (run none (construct []) [Op.submit "A" 5 1]).scores ∨
      ∃ M, (none : Option Nat) = some M ∧
        (run none (construct []) [Op.submit "A" 5 1]).scores.length = M ∧
        ∀ f ∈ (run none (construct []) [Op.submit "A" 5 1]).scores,
          (⟨"A", 5, 1⟩ : ScoreEntry).score ≤ f.score) :=
  ⟨by decide,
    c7_pending_subset_ranked none [] [Op.submit "A" 5 1] ⟨"A", 5, 1⟩ (by decide)⟩

/-- C8: after construction the ranked collection is a permutation of the
persisted rows, sorted by score descending then timestamp descending, and
the pending buffer is empty; constructing from a store holding only
("X", 10, 100) and calling topN(5) returns exactly that entry. -/
theorem c8_construct_seeds_ranked :
    (∀ rows : List ScoreEntry,
      (construct rows).pendingScores = [] ∧
      (construct rows).scores.Perm rows ∧
      (construct rows).scores.Pairwise specGe) ∧
    getTop 5 (construct [⟨"X", 10, 100⟩]) = [⟨"X", 10, 100⟩] := by
  constructor
  · intro rows
    exact ⟨rfl, loadOrder_perm rows, loadOrder_sorted rows⟩
  · decide

/-- C9: reads are idempotent — `getTop` mutates nothing, so calling it any
number of times between two `getTop k` calls leaves the result unchanged. -/
theorem c9_idempotent_reads (cap : Option Nat) (s : StoreState) (k : Int)
    (limits : List Int) :
    getTop k (run cap s (limits.map Op.query)) = getTop k s := by
  induction limits generalizing s with
  | nil => rfl
  | cons a rest ih => exact ih (step cap s (Op.query a))

/-- C10: each submit appends exactly one new entry to the pending buffer
(even if an equal entry is already there — no deduplication), leaves the
Durable Store untouched, and the new ranked collection plus the (possibly
empty) truncated-away entries is a permutation of the old one plus the new
entry; with no cap configured nothing is ever removed. -/
theorem c10_submit_frame (cap : Option Nat) (n : String) (sc : Int) (t : Nat)
    (s : StoreState) :
    (add cap n sc t s).pendingScores = s.pendingScores ++ [⟨n, sc, t⟩] ∧
    (add cap n sc t s).db = s.db ∧
    (add cap n sc t s).pendingScores.count ⟨n, sc, t⟩ =
      s.pendingScores.count ⟨n, sc, t⟩ + 1 ∧
    (∃ dropped, ((add cap n sc t s).scores ++ dropped).Perm
      (s.scores ++ [⟨n, sc, t⟩])) ∧
    (cap = none → (add cap n sc t s).scores.Perm (s.scores ++ [⟨n, sc, t⟩])) := by
  have hsc : (add cap n sc t s).scores =
      applyCap cap (sortScores (s.scores ++ [⟨n, sc, t⟩])) := rfl
  have hperm := sortScores_perm (s.scores ++ [⟨n, sc, t⟩])
  refine ⟨rfl, rfl, ?_, ?_, ?_⟩
  · show (s.pendingScores ++ [(⟨n, sc, t⟩ : ScoreEntry)]).count _ = _
    rw [List.count_append]
    simp
  · rw [hsc]
    cases cap with
    | none =>
      rw [applyCap_none]
      exact ⟨[], by simpa using hperm⟩
    | some M =>
      rw [applyCap_some]
      split
      · refine ⟨(sortScores (s.scores ++ [⟨n, sc, t⟩])).drop M, ?_⟩
        rw [List.take_append_drop]
        exact hperm
      · exact ⟨[], by simpa using hperm⟩
  · intro hnone
    subst hnone
    rw [hsc, applyCap_none]
    exact hperm

/-- C10 witness: with no cap, one submit onto the empty store yields a
ranked collection that is a permutation of the singleton new entry. -/
theorem c10_witness :
    ((none : Option Nat) = none) ∧
    (add none "A" (5 : Int) 1 (construct [])).scores.Perm
      ((construct []).scores ++ [⟨"A", 5, 1⟩]) :=
  ⟨rfl, (c10_submit_frame none "A" 5 1 (construct [])).2.2.2.2 rfl⟩

end MemoryGame
